import Mathlib

/-!
Verification of the core of `scripts/analyze_profile.py` (samply profile
analyzer): address-to-symbol resolution (`build_address_map`), thread
selection (`find_main_thread`) and stack-walk aggregation
(`analyze_samples`), shallowly embedded in Lean.

Python dictionaries used only through assignment and `get` are embedded as
functions `Nat → Option String`; `defaultdict(int)` counters, whose key set
matters, are embedded as association lists; Python `IndexError` on list
subscripts is embedded as `Option`/`Except` failure.
-/

namespace AnalyzeProfile

/-- Character-list substring test: does `hay` contain `needle` as a
contiguous run?  Embeds Python's `needle in hay` on strings. -/
def listContainsSub (needle : List Char) : List Char → Bool
  | [] => needle.isPrefixOf []
  | c :: rest => needle.isPrefixOf (c :: rest) || listContainsSub needle rest

/-- Embeds Python's string containment test `needle in hay`. -/
def strContains (hay needle : String) : Bool :=
  listContainsSub needle.toList hay.toList

/-- One entry of an image's `symbol_table`:
`{rva: unsigned, size: unsigned, symbol: index into string_table}`. -/
structure SymEntry where
  rva : Nat
  size : Nat
  symbol : Nat
  deriving DecidableEq, Repr

/-- One image descriptor from the symbols document: `debug_name` plus its
`symbol_table`. -/
structure ImageLib where
  debug_name : String
  symbol_table : List SymEntry
  deriving DecidableEq, Repr

/-- The parsed symbols document: `data` (image descriptors) and the shared
`string_table`. -/
structure SymbolsFile where
  data : List ImageLib
  string_table : List String
  deriving DecidableEq, Repr

/-- Coverage test: address `a` lies in the half-open range
`[e.rva, e.rva + e.size)`, i.e. the inner Python loop
`for offset in range(size): addr_to_sym[rva + offset] = name`
assigns address `a` while processing entry `e`. -/
def coversB (e : SymEntry) (a : Nat) : Bool :=
  decide (e.rva ≤ a) && decide (a < e.rva + e.size)

/-- The address map built so far: a Python dict keyed by addresses. -/
abbrev AddrMap : Type := Nat → Option String

/-- Dict assignment of one entry's whole range:
`for offset in range(size): addr_to_sym[rva + offset] = name`. -/
def insertRange (m : AddrMap) (e : SymEntry) (name : String) : AddrMap :=
  fun a => if coversB e a then some name else m a

/-- The entry loop of `build_address_map`: for each `sym_entry`, look up
`symbols.string_table[sym_entry.symbol]` (failure embeds Python's
`IndexError`) and assign every address of the entry's range to that name.
Later entries overwrite earlier ones, as dict assignment does. -/
def buildMap (strtab : List String) : List SymEntry → AddrMap → Option AddrMap
  | [], m => some m
  | e :: rest, m =>
    match strtab.get? e.symbol with
    | none => none
    | some name => buildMap strtab rest (insertRange m e name)

/-- The image-search loop of `build_address_map`: the first `lib` in
`symbols['data']` whose `debug_name` contains `'demo-interactive'`. -/
def findDemoLib (libs : List ImageLib) : Option ImageLib :=
  libs.find? (fun lib => strContains lib.debug_name "demo-interactive")

/-- Embeds `build_address_map(symbols)`: find the demo-interactive image (exiting
with the printed diagnostic if absent), then build the address map from its
symbol table. -/
def build_address_map (symbols : SymbolsFile) : Except String AddrMap :=
  match findDemoLib symbols.data with
  | none => .error "ERROR: Could not find demo-interactive library in symbols"
  | some lib =>
    match buildMap symbols.string_table lib.symbol_table (fun _ => none) with
    | none => .error "IndexError: string_table index out of range"
    | some m => .ok m

/-- Python's `f'0x{addr:x}'`: the lowercase-hex fallback label. -/
def hexFallback (a : Nat) : String :=
  String.mk ('0' :: 'x' :: Nat.toDigits 16 a)

/-- The resolution step of `analyze_samples`, line
`func_name = addr_to_sym.get(addr, f'0x{addr:x}')`. -/
def resolve (m : AddrMap) (a : Nat) : String :=
  (m a).getD (hexFallback a)

/-- One thread record of the profile document, restricted to the fields the
core reads: `processName`, `isMainThread`, `samples.length` (a stored
count), `samples.stack` (the per-sample stack ids, possibly null or
negative), `stackTable.frame`, the stack parent links (the second
stack-table column, possibly null or negative) and `frameTable.address`. -/
structure Thread where
  processName : String
  isMainThread : Bool
  samplesLength : Nat
  samplesStack : List (Option Int)
  stackTableFrame : List Nat
  stackTableParent : List (Option Int)
  frameTableAddress : List Nat
  deriving DecidableEq, Repr

/-- The selection test of `find_main_thread`:
`('demo-interactive' in processName or isMainThread) and
samples.length > 100`. -/
def selCond (t : Thread) : Bool :=
  (strContains t.processName "demo-interactive" || t.isMainThread) &&
    decide (100 < t.samplesLength)

/-- Python's `max(threads, key=...)` scan: keep the current best, replace
it only when a later element's key is strictly greater, so the first
maximal element wins. -/
def pyMaxAux (best : Thread) : List Thread → Thread
  | [] => best
  | t :: rest =>
    pyMaxAux (if best.samplesLength < t.samplesLength then t else best) rest

/-- Embeds `find_main_thread(profile)`: return the first thread passing
`selCond`; otherwise fall back to `max(threads, key=samples.length)`
(`none` embeds the `ValueError` Python's `max` raises on an empty
sequence). -/
def find_main_thread (threads : List Thread) : Option Thread :=
  match threads.find? selCond with
  | some t => some t
  | none =>
    match threads with
    | [] => none
    | t :: rest => some (pyMaxAux t rest)

/-- The aggregator's `defaultdict(int)` counter, as an association list
whose key order is dict insertion order. -/
abbrev FuncCounts : Type := List (String × Nat)

/-- Embeds `func_samples[name] += 1` on a `defaultdict(int)`: increment the
existing key in place, or append the new key with count 1. -/
def dIncr : FuncCounts → String → FuncCounts
  | [], k => [(k, 1)]
  | (k2, v) :: rest, k =>
    if k2 = k then (k2, v + 1) :: rest else (k2, v) :: dIncr rest k

/-- Sum of all counts in a counter. -/
def totalCount (fc : FuncCounts) : Nat :=
  (fc.map (fun p => p.2)).sum

/-- The inner walk `for depth in range(50)` of `analyze_samples`, with the
remaining iteration budget as fuel.  Each iteration: stop on a null or
negative id, stop when the id was already visited this sample (cycle
check), otherwise read `stackTable.frame[current]`,
`frameTable.address[frame_idx]`, resolve the address, bump the counter,
and move to the parent link of `current`.  A failed list subscript embeds
Python's `IndexError`. -/
def walkSteps (t : Thread) (m : AddrMap) :
    Nat → Option Int → List Int → FuncCounts → Except Unit FuncCounts
  | 0, _, _, fc => .ok fc
  | fuel + 1, cur, visited, fc =>
    match cur with
    | none => .ok fc
    | some c =>
      if c < 0 then .ok fc
      else if c ∈ visited then .ok fc
      else
        match t.stackTableFrame.get? c.toNat with
        | none => .error ()
        | some frameIdx =>
          match t.frameTableAddress.get? frameIdx with
          | none => .error ()
          | some addr =>
            match t.stackTableParent.get? c.toNat with
            | none => .error ()
            | some parent =>
              walkSteps t m fuel parent (c :: visited) (dIncr fc (resolve m addr))

/-- The outer loop of `analyze_samples` over the sample stack ids:
`continue` on a null or negative id, otherwise walk with a fresh visited
set and fuel 50, threading the counter through. -/
def analyzeGo (t : Thread) (m : AddrMap) :
    List (Option Int) → FuncCounts → Except Unit FuncCounts
  | [], fc => .ok fc
  | s :: rest, fc =>
    match s with
    | none => analyzeGo t m rest fc
    | some si =>
      if si < 0 then analyzeGo t m rest fc
      else
        match walkSteps t m 50 (some si) [] fc with
        | .error e => .error e
        | .ok fc2 => analyzeGo t m rest fc2

/-- Embeds `analyze_samples(thread, addr_to_sym)`: walk every sample and return
`(func_samples, len(stack_indices))`. -/
def analyze_samples (t : Thread) (m : AddrMap) :
    Except Unit (FuncCounts × Nat) :=
  match analyzeGo t m t.samplesStack [] with
  | .error e => .error e
  | .ok fc => .ok (fc, t.samplesStack.length)

/-- Holds when an optional stack id is harmless for the walk: null,
negative (both stop the walk) or an in-range index into
`stackTable.frame`. -/
def validId (t : Thread) (p : Option Int) : Bool :=
  match p with
  | none => true
  | some c => decide (c < 0) || decide (c.toNat < t.stackTableFrame.length)

/-- Well-formedness of a thread's tables: the parent column is as long as
the frame column, every frame index is in range for `frameTable.address`,
and every parent link and every sample stack id is null, negative or in
range.  Cyclic parent links are allowed. -/
def wfThread (t : Thread) : Bool :=
  decide (t.stackTableParent.length = t.stackTableFrame.length) &&
    t.stackTableFrame.all (fun fi => decide (fi < t.frameTableAddress.length)) &&
    t.stackTableParent.all (validId t) &&
    t.samplesStack.all (validId t)

/-- State-passing variant of `walkSteps`: the profile tables and the
address map are threaded through explicitly and returned, mirroring that
every access the Python loop body makes to `thread` and `addr_to_sym` is a
read. -/
def walkStepsSt (st : Thread × AddrMap) :
    Nat → Option Int → List Int → FuncCounts →
      Except Unit ((Thread × AddrMap) × FuncCounts)
  | 0, _, _, fc => .ok (st, fc)
  | fuel + 1, cur, visited, fc =>
    match cur with
    | none => .ok (st, fc)
    | some c =>
      if c < 0 then .ok (st, fc)
      else if c ∈ visited then .ok (st, fc)
      else
        match st.1.stackTableFrame.get? c.toNat with
        | none => .error ()
        | some frameIdx =>
          match st.1.frameTableAddress.get? frameIdx with
          | none => .error ()
          | some addr =>
            match st.1.stackTableParent.get? c.toNat with
            | none => .error ()
            | some parent =>
              walkStepsSt st fuel parent (c :: visited)
                (dIncr fc (resolve st.2 addr))

/-- State-passing variant of `analyzeGo`. -/
def analyzeGoSt (st : Thread × AddrMap) :
    List (Option Int) → FuncCounts →
      Except Unit ((Thread × AddrMap) × FuncCounts)
  | [], fc => .ok (st, fc)
  | s :: rest, fc =>
    match s with
    | none => analyzeGoSt st rest fc
    | some si =>
      if si < 0 then analyzeGoSt st rest fc
      else
        match walkStepsSt st 50 (some si) [] fc with
        | .error e => .error e
        | .ok stfc => analyzeGoSt stfc.1 rest stfc.2

/-- State-passing variant of `analyze_samples`: returns the final state of
the thread tables and the address map next to the two computed values. -/
def analyze_samplesSt (st : Thread × AddrMap) :
    Except Unit ((Thread × AddrMap) × FuncCounts × Nat) :=
  match analyzeGoSt st st.1.samplesStack [] with
  | .error e => .error e
  | .ok stfc => .ok (stfc.1, stfc.2, stfc.1.1.samplesStack.length)

/-! ### Concrete fixtures used by witnesses and counterexamples -/

/-- The empty address map (no symbols resolve). -/
def noSyms : AddrMap := fun _ => none

/-- One-symbol fixture: a string table holding the single name foo. -/
def strtab1 : List String := ["foo"]

/-- One-symbol fixture: a single entry covering `[100, 110)`. -/
def entries1 : List SymEntry := [⟨100, 10, 0⟩]

/-- The address map `buildMap` produces from `entries1`. -/
def map1 : AddrMap := insertRange (fun _ => none) ⟨100, 10, 0⟩ "foo"

/-- Overlap fixture: two names. -/
def strtab2 : List String := ["f", "g"]

/-- Overlap fixture: `[100, 110)` then `[105, 115)` overlap on
`[105, 110)`. -/
def entries2 : List SymEntry := [⟨100, 10, 0⟩, ⟨105, 10, 1⟩]

/-- The address map `buildMap` produces from `entries2`. -/
def map2 : AddrMap :=
  insertRange (insertRange (fun _ => none) ⟨100, 10, 0⟩ "f") ⟨105, 10, 1⟩ "g"

/-- Degenerate fixture: the string table stores an empty name. -/
def strtab6 : List String := [""]

/-- Degenerate fixture: one entry covering address 0, named by the empty
string. -/
def entries6 : List SymEntry := [⟨0, 1, 0⟩]

/-- The address map `buildMap` produces from `entries6`. -/
def map6 : AddrMap := insertRange (fun _ => none) ⟨0, 1, 0⟩ ""

/-- A symbols document whose only image matches `demo-interactive` but has
an empty `symbol_table`. -/
def emptySyms : SymbolsFile := ⟨[⟨"demo-interactive", []⟩], []⟩

/-- A symbols document with no image matching `demo-interactive`. -/
def noMatchSyms : SymbolsFile := ⟨[⟨"other-lib", [⟨0, 1, 0⟩]⟩], ["x"]⟩

/-- A thread whose parent links form the cycle 0 → 1 → 0, with one null
sample and one negative sample. -/
def thread2 : Thread :=
  { processName := "demo-interactive", isMainThread := true,
    samplesLength := 3, samplesStack := [none, some (-1), some 0],
    stackTableFrame := [0, 0], stackTableParent := [some 1, some 0],
    frameTableAddress := [5] }

/-- A thread with a straight-line parent chain of length 61, longer than
the 50-step cap. -/
def thread7 : Thread :=
  { processName := "", isMainThread := false,
    samplesLength := 1, samplesStack := [some 0],
    stackTableFrame := List.replicate 61 0,
    stackTableParent := (List.range 61).map (fun i => some ((i : Int) + 1)),
    frameTableAddress := [7] }

/-- Selector fixture: wrong name, not main, few samples. -/
def threadA : Thread :=
  { processName := "other", isMainThread := false, samplesLength := 50,
    samplesStack := [], stackTableFrame := [], stackTableParent := [],
    frameTableAddress := [] }

/-- Selector fixture: matching name, above the 100-sample threshold. -/
def threadB : Thread :=
  { processName := "demo-interactive app", isMainThread := false,
    samplesLength := 150, samplesStack := [], stackTableFrame := [],
    stackTableParent := [], frameTableAddress := [] }

/-- Selector fixture: flagged main but only 70 samples. -/
def threadD : Thread :=
  { processName := "idle", isMainThread := true, samplesLength := 70,
    samplesStack := [], stackTableFrame := [], stackTableParent := [],
    frameTableAddress := [] }

/-! ### Lemmas about the address-map construction -/

/-- When construction succeeds, every entry's symbol index resolves in the
string table. -/
theorem buildMap_symbol_ok (strtab : List String) :
    ∀ (entries : List SymEntry) (m0 m : AddrMap),
      buildMap strtab entries m0 = some m →
      ∀ e ∈ entries, ∃ name, strtab.get? e.symbol = some name := by
  intro entries
  induction entries with
  | nil => intro m0 m _ e he; cases he
  | cons e0 rest ih =>
    intro m0 m hb e he
    rw [buildMap] at hb
    cases hg : strtab.get? e0.symbol with
    | none => rw [hg] at hb; cases hb
    | some name =>
      rw [hg] at hb
      rcases List.mem_cons.mp he with rfl | hmem
      · exact ⟨name, hg⟩
      · exact ih _ m hb e hmem

/-- On an address covered by no entry, the built dict agrees with the
initial dict. -/
theorem buildMap_nocover (strtab : List String) :
    ∀ (entries : List SymEntry) (m0 m : AddrMap),
      buildMap strtab entries m0 = some m →
      ∀ a : Nat, (∀ e ∈ entries, coversB e a = false) → m a = m0 a := by
  intro entries
  induction entries with
  | nil =>
    intro m0 m hb a _
    rw [buildMap] at hb
    cases hb
    rfl
  | cons e0 rest ih =>
    intro m0 m hb a hnc
    rw [buildMap] at hb
    cases hg : strtab.get? e0.symbol with
    | none => rw [hg] at hb; cases hb
    | some name =>
      rw [hg] at hb
      have h0 : coversB e0 a = false := hnc e0 (List.mem_cons_self e0 rest)
      have hrest : ∀ e ∈ rest, coversB e a = false :=
        fun e he => hnc e (List.mem_cons_of_mem e0 he)
      have := ih _ m hb a hrest
      rw [this, insertRange]
      simp [h0]

/-- Master lemma: on an address with at least one covering entry, the
built dict holds the name of the last covering entry in input order. -/
theorem buildMap_lastcover (strtab : List String) :
    ∀ (entries : List SymEntry) (m0 m : AddrMap),
      buildMap strtab entries m0 = some m →
      ∀ (a : Nat) (e : SymEntry),
        (entries.filter (fun x => coversB x a)).getLast? = some e →
        m a = strtab.get? e.symbol := by
  intro entries
  induction entries with
  | nil =>
    intro m0 m _ a e hlast
    simp [List.filter_nil] at hlast
  | cons e0 rest ih =>
    intro m0 m hb a e hlast
    rw [buildMap] at hb
    cases hg : strtab.get? e0.symbol with
    | none => rw [hg] at hb; cases hb
    | some name =>
      rw [hg] at hb
      rw [List.filter_cons] at hlast
      cases hc : coversB e0 a with
      | true =>
        simp only [hc, if_true] at hlast
        cases hfil : rest.filter (fun x => coversB x a) with
        | nil =>
          rw [hfil] at hlast
          simp only [List.getLast?_singleton, Option.some_inj] at hlast
          have hncr : ∀ x ∈ rest, coversB x a = false := by
            intro x hx
            by_contra hxc
            have : x ∈ rest.filter (fun x => coversB x a) :=
              List.mem_filter.mpr ⟨hx, by simp at hxc; simp [hxc]⟩
            rw [hfil] at this
            cases this
          have hmb := buildMap_nocover strtab rest _ m hb a hncr
          rw [hmb, insertRange]
          simp only [hc, if_true]
          rw [← hlast, hg]
        | cons b bs =>
          rw [hfil, List.getLast?_cons_cons] at hlast
          exact ih _ m hb a e (by rw [hfil]; exact hlast)
      | false =>
        simp only [hc, Bool.false_eq_true, if_false] at hlast
        exact ih _ m hb a e hlast

/-- When construction succeeds from the empty dict, every stored name
comes from the string table. -/
theorem buildMap_name_mem (strtab : List String) (entries : List SymEntry)
    (m : AddrMap) (hb : buildMap strtab entries (fun _ => none) = some m)
    (a : Nat) (s : String) (hs : m a = some s) : s ∈ strtab := by
  cases hrest : (entries.filter (fun x => coversB x a)).getLast? with
  | none =>
    have hnil : entries.filter (fun x => coversB x a) = [] :=
      List.getLast?_eq_none_iff.mp hrest
    have hnc : ∀ e ∈ entries, coversB e a = false := by
      intro e he
      by_contra hec
      have : e ∈ entries.filter (fun x => coversB x a) :=
        List.mem_filter.mpr ⟨he, by simp at hec; simp [hec]⟩
      rw [hnil] at this
      cases this
    have := buildMap_nocover strtab entries _ m hb a hnc
    rw [this] at hs
    cases hs
  | some e =>
    have hm := buildMap_lastcover strtab entries _ m hb a e hrest
    rw [hm] at hs
    exact List.get?_mem hs

/-- If exactly one entry (as a value) covers an address, it is the last
covering entry. -/
theorem getLast?_filter_unique {α : Type} {p : α → Bool} {l : List α}
    {e : α} (he : e ∈ l) (hp : p e = true)
    (huniq : ∀ x ∈ l, p x = true → x = e) :
    (l.filter p).getLast? = some e := by
  have hmem : e ∈ l.filter p := List.mem_filter.mpr ⟨he, hp⟩
  have hne : l.filter p ≠ [] := List.ne_nil_of_mem hmem
  rw [List.getLast?_eq_getLast_of_ne_nil hne]
  have hlm := List.getLast_mem hne
  have := List.mem_filter.mp hlm
  rw [huniq _ this.1 this.2]

/-- An entry never covers the endpoint of its own half-open range. -/
theorem coversB_self_end (e : SymEntry) : coversB e (e.rva + e.size) = false := by
  rw [coversB]
  simp

/-- The hex fallback label always starts with `0x` and is never empty. -/
theorem hexFallback_ne_empty (a : Nat) : hexFallback a ≠ "" := by
  intro h
  have hd := congrArg String.data h
  rw [hexFallback] at hd
  simp at hd

/-- On addresses covered by no entry, the built dict is empty and
resolution falls back to the hex label. -/
theorem resolve_uncovered (strtab : List String) (entries : List SymEntry)
    (m : AddrMap) (hb : buildMap strtab entries (fun _ => none) = some m)
    (a : Nat) (hnc : ∀ e ∈ entries, coversB e a = false) :
    m a = none ∧ resolve m a = hexFallback a := by
  have hm := buildMap_nocover strtab entries _ m hb a hnc
  refine ⟨hm, ?_⟩
  rw [resolve, hm]
  rfl

/-! ### Claim theorems: the Address Resolver -/

/-- C1: for every symbol entry and every address inside its half-open
range `[rva, rva + size)` covered by no other entry, `resolve` returns the
entry's name; the endpoint `rva + size` is outside the range, so when no
entry covers it the dict holds nothing there and `resolve` answers the hex
fallback label, not the entry's attribution. -/
theorem C1_unique_coverage_halfopen (strtab : List String)
    (entries : List SymEntry) (m : AddrMap) (e : SymEntry) (a : Nat)
    (hb : buildMap strtab entries (fun _ => none) = some m)
    (he : e ∈ entries) (hcov : coversB e a = true)
    (huniq : ∀ x ∈ entries, coversB x a = true → x = e) :
    (∃ name, strtab.get? e.symbol = some name ∧ resolve m a = name) ∧
    ((∀ x ∈ entries, coversB x (e.rva + e.size) = false) →
      m (e.rva + e.size) = none ∧
      resolve m (e.rva + e.size) = hexFallback (e.rva + e.size) ∧
      ∀ name, strtab.get? e.symbol = some name →
        name ≠ hexFallback (e.rva + e.size) →
        resolve m (e.rva + e.size) ≠ name) := by
  constructor
  · obtain ⟨name, hname⟩ := buildMap_symbol_ok strtab entries _ m hb e he
    refine ⟨name, hname, ?_⟩
    have hlast := getLast?_filter_unique he hcov huniq
    have hm := buildMap_lastcover strtab entries _ m hb a e hlast
    rw [resolve, hm, hname]
    rfl
  · intro hnc
    obtain ⟨hm, hres⟩ := resolve_uncovered strtab entries m hb _ hnc
    refine ⟨hm, hres, fun name _ hne hcontra => ?_⟩
    rw [hres] at hcontra
    exact hne hcontra.symm

/-- Witness for C1 at the one-entry fixture mapping the range
100 to 110 to the name foo: address 105 resolves to foo and the
endpoint 110 falls back. -/
theorem C1_witness :
    resolve map1 105 = "foo" ∧ resolve map1 110 = hexFallback 110 := by
  have h := C1_unique_coverage_halfopen strtab1 entries1 map1 ⟨100, 10, 0⟩
    105 rfl (by decide) (by decide) (by decide)
  obtain ⟨⟨name, hname, hres⟩, h2⟩ := h
  have h2a := h2 (by decide)
  constructor
  · rw [hres]
    exact Option.some.inj (hname.symm.trans (by rfl))
  · exact h2a.2.1

/-- C5: on an address claimed by several overlapping entries, `resolve`
returns the name of the last entry in input order that covers it, and
every repeated call with the same address returns that same name. -/
theorem C5_overlap_last_writer (strtab : List String)
    (entries : List SymEntry) (m : AddrMap) (a : Nat) (e : SymEntry)
    (hb : buildMap strtab entries (fun _ => none) = some m)
    (hlast : (entries.filter (fun x => coversB x a)).getLast? = some e) :
    ∃ name, strtab.get? e.symbol = some name ∧ resolve m a = name ∧
      ∀ b : Nat, b = a → resolve m b = name := by
  have hmeme : e ∈ entries := by
    obtain ⟨hne, hg⟩ := List.mem_getLast?_eq_getLast (l := entries.filter
      (fun x => coversB x a)) (x := e) hlast
    have := List.getLast_mem hne
    rw [← hg] at this
    exact (List.mem_filter.mp this).1
  obtain ⟨name, hname⟩ := buildMap_symbol_ok strtab entries _ m hb e hmeme
  have hm := buildMap_lastcover strtab entries _ m hb a e hlast
  have hres : resolve m a = name := by
    rw [resolve, hm, hname]
    rfl
  exact ⟨name, hname, hres, fun b hba => by rw [hba]; exact hres⟩

/-- Witness for C5 at the overlap fixture: the ranges 100 to 110 (name f)
and 105 to 115 (name g) both cover 107; the later entry wins. -/
theorem C5_witness : resolve map2 107 = "g" := by
  obtain ⟨name, hname, hres, _⟩ := C5_overlap_last_writer strtab2 entries2
    map2 107 ⟨105, 10, 1⟩ rfl (by decide)
  rw [hres]
  exact Option.some.inj (hname.symm.trans (by rfl))

/-- Counterexample to C6 as stated: when the string table stores the empty
string as a symbol name, `resolve` returns the empty string on the
addresses that entry covers. -/
theorem C6_counterexample :
    buildMap strtab6 entries6 (fun _ => none) = some map6 ∧
    resolve map6 0 = "" :=
  ⟨rfl, rfl⟩

/-- C6 amended: `resolve` is total (never raises); on every address
covered by no entry it returns the hex fallback label, which is never
empty; and whenever every string-table name is non-empty, `resolve` never
returns the empty string on any address. -/
theorem C6_amended_no_failure (strtab : List String)
    (entries : List SymEntry) (m : AddrMap)
    (hb : buildMap strtab entries (fun _ => none) = some m) :
    (∀ a : Nat, (∀ e ∈ entries, coversB e a = false) →
      m a = none ∧ resolve m a = hexFallback a ∧ hexFallback a ≠ "") ∧
    ((∀ s ∈ strtab, s ≠ "") → ∀ a : Nat, resolve m a ≠ "") := by
  constructor
  · intro a hnc
    obtain ⟨h1, h2⟩ := resolve_uncovered strtab entries m hb a hnc
    exact ⟨h1, h2, hexFallback_ne_empty a⟩
  · intro hne a
    cases hm : m a with
    | none =>
      rw [resolve, hm]
      simpa using hexFallback_ne_empty a
    | some s =>
      have hmem := buildMap_name_mem strtab entries m hb a s hm
      rw [resolve, hm]
      simpa using hne s hmem

/-- Witness for C6 at the one-entry fixture: the uncovered address 500
falls back to a hex label and the covered address 105 resolves to a
non-empty name. -/
theorem C6_witness :
    resolve map1 500 = hexFallback 500 ∧ resolve map1 105 ≠ "" := by
  have h := C6_amended_no_failure strtab1 entries1 map1 rfl
  exact ⟨(h.1 500 (by decide)).2.1, h.2 (by decide) 105⟩

/-- Counterexample to C8 as stated: a symbols document whose matching
image has an empty symbol table builds successfully (no fatal error),
yielding the empty resolver. -/
theorem C8_counterexample :
    build_address_map emptySyms = Except.ok (fun _ => none) ∧
    (build_address_map emptySyms).isOk = true :=
  ⟨rfl, rfl⟩

/-- C8 amended: construction is fatal with the specific diagnostic exactly
when no image's debug name contains `demo-interactive`; when the matched
image's symbol table is empty, construction silently succeeds with the
empty resolver (which can only produce fallback labels). -/
theorem C8_missing_image_fatal (symbols : SymbolsFile) :
    ((∀ lib ∈ symbols.data,
        strContains lib.debug_name "demo-interactive" = false) →
      build_address_map symbols =
        Except.error "ERROR: Could not find demo-interactive library in symbols") ∧
    (∀ lib, findDemoLib symbols.data = some lib → lib.symbol_table = [] →
      build_address_map symbols = Except.ok (fun _ => none)) := by
  constructor
  · intro hnm
    have hfind : findDemoLib symbols.data = none := by
      rw [findDemoLib, List.find?_eq_none]
      intro lib hmem
      rw [hnm lib hmem]
      simp
    rw [build_address_map, hfind]
  · intro lib hfind htab
    rw [build_address_map, hfind]
    simp only [htab, buildMap]

/-- Witness for C8: the non-matching document errors with the diagnostic;
the matching-but-empty document succeeds with the empty resolver. -/
theorem C8_witness :
    build_address_map noMatchSyms =
      Except.error "ERROR: Could not find demo-interactive library in symbols" ∧
    build_address_map emptySyms = Except.ok (fun _ => none) :=
  ⟨(C8_missing_image_fatal noMatchSyms).1 (by decide),
   (C8_missing_image_fatal emptySyms).2 ⟨"demo-interactive", []⟩ rfl rfl⟩

/-! ### Lemmas about the thread selector -/

/-- Python's `max` scan returns its running best or a list element. -/
theorem pyMaxAux_mem : ∀ (l : List Thread) (best : Thread),
    pyMaxAux best l = best ∨ pyMaxAux best l ∈ l := by
  intro l
  induction l with
  | nil => intro best; exact Or.inl rfl
  | cons t rest ih =>
    intro best
    rw [pyMaxAux]
    by_cases hlt : best.samplesLength < t.samplesLength
    · rw [if_pos hlt]
      rcases ih t with h | h
      · refine Or.inr ?_
        rw [h]
        exact List.mem_cons_self t rest
      · exact Or.inr (List.mem_cons_of_mem t h)
    · rw [if_neg hlt]
      rcases ih best with h | h
      · exact Or.inl h
      · exact Or.inr (List.mem_cons_of_mem t h)

/-- Python's `max` scan returns an element whose key is maximal among the
running best and the whole list. -/
theorem pyMaxAux_ge : ∀ (l : List Thread) (best : Thread),
    best.samplesLength ≤ (pyMaxAux best l).samplesLength ∧
    ∀ u ∈ l, u.samplesLength ≤ (pyMaxAux best l).samplesLength := by
  intro l
  induction l with
  | nil => intro best; exact ⟨Nat.le_refl _, fun u hu => absurd hu (by simp)⟩
  | cons t rest ih =>
    intro best
    rw [pyMaxAux]
    by_cases hlt : best.samplesLength < t.samplesLength
    · rw [if_pos hlt]
      obtain ⟨h1, h2⟩ := ih t
      refine ⟨Nat.le_trans (Nat.le_of_lt hlt) h1, fun u hu => ?_⟩
      rcases List.mem_cons.mp hu with rfl | hm
      · exact h1
      · exact h2 u hm
    · rw [if_neg hlt]
      obtain ⟨h1, h2⟩ := ih best
      refine ⟨h1, fun u hu => ?_⟩
      rcases List.mem_cons.mp hu with rfl | hm
      · exact Nat.le_trans (Nat.le_of_not_lt hlt) h1
      · exact h2 u hm

/-- C3: on a non-empty thread list, the selector returns the first thread
satisfying the combined rule (name contains `demo-interactive` or the main
flag is set, and more than 100 samples); when no thread satisfies it, the
selector returns a thread of the list whose stored sample count is maximal
over all threads. -/
theorem C3_thread_selection (threads : List Thread) (hne : threads ≠ []) :
    (∀ pre t post, threads = pre ++ t :: post →
      (∀ u ∈ pre, selCond u = false) → selCond t = true →
      find_main_thread threads = some t) ∧
    ((∀ u ∈ threads, selCond u = false) →
      ∃ t, t ∈ threads ∧ find_main_thread threads = some t ∧
        ∀ u ∈ threads, u.samplesLength ≤ t.samplesLength) := by
  constructor
  · intro pre t post hsplit hpre ht
    have hfind : threads.find? selCond = some t := by
      rw [hsplit, List.find?_append]
      have hpre2 : pre.find? selCond = none :=
        List.find?_eq_none.mpr (fun x hx => by rw [hpre x hx]; simp)
      rw [hpre2, List.find?_cons_of_pos post ht]
      rfl
    rw [find_main_thread.eq_def, hfind]
  · intro hnone
    have hfind : threads.find? selCond = none :=
      List.find?_eq_none.mpr (fun x hx => by rw [hnone x hx]; simp)
    obtain ⟨t0, rest, rfl⟩ : ∃ t0 rest, threads = t0 :: rest := by
      cases threads with
      | nil => exact absurd rfl hne
      | cons a b => exact ⟨a, b, rfl⟩
    refine ⟨pyMaxAux t0 rest, ?_, ?_, ?_⟩
    · rcases pyMaxAux_mem rest t0 with h | h
      · rw [h]; exact List.mem_cons_self t0 rest
      · exact List.mem_cons_of_mem t0 h
    · rw [find_main_thread.eq_def, hfind]
    · obtain ⟨h1, h2⟩ := pyMaxAux_ge rest t0
      intro u hu
      rcases List.mem_cons.mp hu with rfl | hm
      · exact h1
      · exact h2 u hm

/-- Witness for C3: with threads (wrong name, 50 samples), (matching name,
150 samples), (main flag, 70 samples) the selector picks the second. -/
theorem C3_witness :
    find_main_thread [threadA, threadB, threadD] = some threadB :=
  (C3_thread_selection [threadA, threadB, threadD] (by decide)).1
    [threadA] threadB [threadD] rfl (by decide) (by decide)

/-! ### Lemmas about the stack aggregator -/

/-- One defaultdict increment raises the sum of all counts by one. -/
theorem dIncr_totalCount : ∀ (fc : FuncCounts) (k : String),
    totalCount (dIncr fc k) = totalCount fc + 1 := by
  intro fc k
  induction fc with
  | nil => rfl
  | cons q rest ih =>
    obtain ⟨k2, v⟩ := q
    rw [dIncr]
    by_cases hk : k2 = k
    · rw [if_pos hk]
      simp only [totalCount, List.map_cons, List.sum_cons]
      omega
    · rw [if_neg hk]
      simp only [totalCount, List.map_cons, List.sum_cons] at ih ⊢
      omega

/-- One defaultdict increment keeps every count at least one. -/
theorem dIncr_pos : ∀ (fc : FuncCounts) (k : String),
    (∀ p ∈ fc, 1 ≤ p.2) → ∀ p ∈ dIncr fc k, 1 ≤ p.2 := by
  intro fc k
  induction fc with
  | nil =>
    intro _ p hp
    simp only [dIncr] at hp
    rcases List.mem_cons.mp hp with rfl | hm
    · exact Nat.le_refl 1
    · cases hm
  | cons q rest ih =>
    obtain ⟨k2, v⟩ := q
    intro hpos p hp
    simp only [dIncr] at hp
    by_cases hk : k2 = k
    · rw [if_pos hk] at hp
      rcases List.mem_cons.mp hp with rfl | hm
      · have := hpos (k2, v) (List.mem_cons_self _ _)
        simp only at this ⊢
        omega
      · exact hpos p (List.mem_cons_of_mem _ hm)
    · rw [if_neg hk] at hp
      rcases List.mem_cons.mp hp with rfl | hm
      · exact hpos _ (List.mem_cons_self _ _)
      · exact ih (fun q hq => hpos q (List.mem_cons_of_mem _ hq)) p hm

/-- The walk increments the counter at most once per unit of fuel. -/
theorem walkSteps_total_le (t : Thread) (m : AddrMap) :
    ∀ (fuel : Nat) (cur : Option Int) (visited : List Int)
      (fc fc2 : FuncCounts),
      walkSteps t m fuel cur visited fc = Except.ok fc2 →
      totalCount fc2 ≤ totalCount fc + fuel := by
  intro fuel
  induction fuel with
  | zero =>
    intro cur visited fc fc2 h
    simp only [walkSteps, Except.ok.injEq] at h
    subst h
    exact Nat.le_add_right _ _
  | succ fuel ih =>
    intro cur visited fc fc2 h
    simp only [walkSteps] at h
    repeat' split at h
    all_goals
      first
        | (simp only [Except.ok.injEq] at h
           subst h
           exact Nat.le_add_right _ _)
        | exact Except.noConfusion h
        | (have h2 := ih _ _ _ _ h
           rw [dIncr_totalCount] at h2
           omega)

/-- The walk preserves positivity of all stored counts. -/
theorem walkSteps_pos (t : Thread) (m : AddrMap) :
    ∀ (fuel : Nat) (cur : Option Int) (visited : List Int)
      (fc fc2 : FuncCounts),
      walkSteps t m fuel cur visited fc = Except.ok fc2 →
      (∀ p ∈ fc, 1 ≤ p.2) → ∀ p ∈ fc2, 1 ≤ p.2 := by
  intro fuel
  induction fuel with
  | zero =>
    intro cur visited fc fc2 h hpos
    simp only [walkSteps, Except.ok.injEq] at h
    subst h
    exact hpos
  | succ fuel ih =>
    intro cur visited fc fc2 h hpos
    simp only [walkSteps] at h
    repeat' split at h
    all_goals
      first
        | (simp only [Except.ok.injEq] at h
           subst h
           exact hpos)
        | exact Except.noConfusion h
        | exact ih _ _ _ _ h (dIncr_pos fc _ hpos)

/-- The outer loop preserves positivity of all stored counts. -/
theorem analyzeGo_pos (t : Thread) (m : AddrMap) :
    ∀ (samples : List (Option Int)) (fc fc2 : FuncCounts),
      analyzeGo t m samples fc = Except.ok fc2 →
      (∀ p ∈ fc, 1 ≤ p.2) → ∀ p ∈ fc2, 1 ≤ p.2 := by
  intro samples
  induction samples with
  | nil =>
    intro fc fc2 h hpos
    simp only [analyzeGo, Except.ok.injEq] at h
    subst h
    exact hpos
  | cons s rest ih =>
    intro fc fc2 h hpos
    cases s with
    | none =>
      simp only [analyzeGo] at h
      exact ih _ _ h hpos
    | some si =>
      simp only [analyzeGo] at h
      by_cases hneg : si < 0
      · rw [if_pos hneg] at h
        exact ih _ _ h hpos
      · rw [if_neg hneg] at h
        cases hw : walkSteps t m 50 (some si) [] fc with
        | error e => rw [hw] at h; exact Except.noConfusion h
        | ok fcw =>
          rw [hw] at h
          exact ih _ _ h (walkSteps_pos t m 50 _ _ _ _ hw hpos)

/-- A valid current id makes the walk succeed whatever the fuel, the
visited set and the counter, provided the thread tables are well formed;
cycles are allowed. -/
theorem walkSteps_ok_of_wf (t : Thread) (m : AddrMap)
    (hlen : t.stackTableParent.length = t.stackTableFrame.length)
    (hframe : ∀ fi ∈ t.stackTableFrame, fi < t.frameTableAddress.length)
    (hparent : ∀ p ∈ t.stackTableParent, validId t p = true) :
    ∀ (fuel : Nat) (cur : Option Int) (visited : List Int)
      (fc : FuncCounts),
      validId t cur = true →
      ∃ fc2, walkSteps t m fuel cur visited fc = Except.ok fc2 := by
  intro fuel
  induction fuel with
  | zero => intro cur visited fc _; exact ⟨fc, rfl⟩
  | succ fuel ih =>
    intro cur visited fc hval
    cases cur with
    | none => exact ⟨fc, rfl⟩
    | some c =>
      by_cases hneg : c < 0
      · refine ⟨fc, ?_⟩
        simp only [walkSteps]
        rw [if_pos hneg]
      · by_cases hvis : c ∈ visited
        · refine ⟨fc, ?_⟩
          simp only [walkSteps]
          rw [if_neg hneg, if_pos hvis]
        · have hcr : c.toNat < t.stackTableFrame.length := by
            rw [validId] at hval
            rcases Bool.or_eq_true_iff.mp hval with hlt | hin
            · exact absurd (of_decide_eq_true hlt) hneg
            · exact of_decide_eq_true hin
          obtain ⟨fi, hfi⟩ : ∃ fi, t.stackTableFrame.get? c.toNat = some fi :=
            ⟨_, List.get?_eq_get hcr⟩
          have haddr_lt := hframe _ (List.get?_mem hfi)
          obtain ⟨addr, haddr⟩ :
              ∃ a, t.frameTableAddress.get? fi = some a :=
            ⟨_, List.get?_eq_get haddr_lt⟩
          have hpr : c.toNat < t.stackTableParent.length := by
            rw [hlen]; exact hcr
          obtain ⟨parent, hpar⟩ :
              ∃ p, t.stackTableParent.get? c.toNat = some p :=
            ⟨_, List.get?_eq_get hpr⟩
          have hpval := hparent _ (List.get?_mem hpar)
          obtain ⟨fc2, hrec⟩ :=
            ih parent (c :: visited) (dIncr fc (resolve m addr)) hpval
          refine ⟨fc2, ?_⟩
          simp only [walkSteps]
          rw [if_neg hneg, if_neg hvis]
          simp only [hfi, haddr, hpar]
          exact hrec

/-- Valid sample ids make the whole outer loop succeed, provided the
thread tables are well formed; cycles are allowed. -/
theorem analyzeGo_ok_of_wf (t : Thread) (m : AddrMap)
    (hlen : t.stackTableParent.length = t.stackTableFrame.length)
    (hframe : ∀ fi ∈ t.stackTableFrame, fi < t.frameTableAddress.length)
    (hparent : ∀ p ∈ t.stackTableParent, validId t p = true) :
    ∀ (samples : List (Option Int)) (fc : FuncCounts),
      (∀ s ∈ samples, validId t s = true) →
      ∃ fc2, analyzeGo t m samples fc = Except.ok fc2 := by
  intro samples
  induction samples with
  | nil => intro fc _; exact ⟨fc, rfl⟩
  | cons s rest ih =>
    intro fc hval
    have hrest : ∀ x ∈ rest, validId t x = true :=
      fun x hx => hval x (List.mem_cons_of_mem _ hx)
    cases s with
    | none =>
      obtain ⟨fc2, h2⟩ := ih fc hrest
      refine ⟨fc2, ?_⟩
      simp only [analyzeGo]
      exact h2
    | some si =>
      by_cases hneg : si < 0
      · obtain ⟨fc2, h2⟩ := ih fc hrest
        refine ⟨fc2, ?_⟩
        simp only [analyzeGo]
        rw [if_pos hneg]
        exact h2
      · obtain ⟨fcw, hw⟩ := walkSteps_ok_of_wf t m hlen hframe hparent
          50 (some si) [] fc (hval _ (List.mem_cons_self _ _))
        obtain ⟨fc2, h2⟩ := ih fcw hrest
        refine ⟨fc2, ?_⟩
        simp only [analyzeGo]
        rw [if_neg hneg, hw]
        exact h2

/-- The state-passing walk returns its state unchanged next to the pure
walk's result. -/
theorem walkStepsSt_eq (st : Thread × AddrMap) :
    ∀ (fuel : Nat) (cur : Option Int) (visited : List Int)
      (fc : FuncCounts),
      walkStepsSt st fuel cur visited fc =
        (walkSteps st.1 st.2 fuel cur visited fc).map
          (fun fc2 => (st, fc2)) := by
  intro fuel
  induction fuel with
  | zero => intro cur visited fc; rfl
  | succ fuel ih =>
    intro cur visited fc
    cases cur with
    | none => rfl
    | some c =>
      simp only [walkSteps, walkStepsSt]
      by_cases hneg : c < 0
      · rw [if_pos hneg, if_pos hneg]
        rfl
      · rw [if_neg hneg, if_neg hneg]
        by_cases hvis : c ∈ visited
        · rw [if_pos hvis, if_pos hvis]
          rfl
        · rw [if_neg hvis, if_neg hvis]
          split
          · rfl
          · split
            · rfl
            · split
              · rfl
              · exact ih _ _ _

/-- The state-passing outer loop returns its state unchanged next to the
pure loop's result. -/
theorem analyzeGoSt_eq (st : Thread × AddrMap) :
    ∀ (samples : List (Option Int)) (fc : FuncCounts),
      analyzeGoSt st samples fc =
        (analyzeGo st.1 st.2 samples fc).map (fun fc2 => (st, fc2)) := by
  intro samples
  induction samples with
  | nil => intro fc; rfl
  | cons s rest ih =>
    intro fc
    cases s with
    | none =>
      simp only [analyzeGo, analyzeGoSt]
      exact ih fc
    | some si =>
      simp only [analyzeGo, analyzeGoSt]
      by_cases hneg : si < 0
      · rw [if_pos hneg, if_pos hneg]
        exact ih fc
      · rw [if_neg hneg, if_neg hneg, walkStepsSt_eq]
        cases hw : walkSteps st.1 st.2 50 (some si) [] fc with
        | error e => rfl
        | ok fcw =>
          simp only [Except.map]
          exact ih fcw

/-! ### Claim theorems: the Stack Aggregator -/

/-- C2: whenever the aggregator returns, the total-samples component is
the length of the thread's stack-id list, counting skipped (null or
negative) and cycle- or cap-truncated samples alike. -/
theorem C2_total_conservation (t : Thread) (m : AddrMap) (fc : FuncCounts)
    (n : Nat) (h : analyze_samples t m = Except.ok (fc, n)) :
    n = t.samplesStack.length := by
  simp only [analyze_samples] at h
  cases hg : analyzeGo t m t.samplesStack [] with
  | error e => rw [hg] at h; exact Except.noConfusion h
  | ok fc2 =>
    rw [hg] at h
    simp only [Except.ok.injEq, Prod.mk.injEq] at h
    exact h.2.symm

/-- Witness for C2 on a thread with one null sample, one negative sample
and one cyclic sample: the aggregator reports 3 total samples. -/
theorem C2_witness : (3 : Nat) = thread2.samplesStack.length :=
  C2_total_conservation thread2 noSyms [("0x5", 2)] 3 (by rfl)

/-- C4: on a well-formed thread (valid indices; cyclic parent links
allowed) the aggregation of every sample terminates without error and the
returned total still counts every sample; revisiting an already-visited
stack id stops that sample's walk silently, returning the counter
unchanged from that point. -/
theorem C4_cycle_termination (t : Thread) (m : AddrMap)
    (hwf : wfThread t = true) :
    (∃ fc, analyze_samples t m = Except.ok (fc, t.samplesStack.length)) ∧
    (∀ (fuel : Nat) (c : Int) (visited : List Int) (fc : FuncCounts),
      ¬ c < 0 → c ∈ visited →
      walkSteps t m (fuel + 1) (some c) visited fc = Except.ok fc) := by
  constructor
  · rw [wfThread] at hwf
    simp only [Bool.and_eq_true, decide_eq_true_eq, List.all_eq_true] at hwf
    obtain ⟨⟨⟨hlen, hframe⟩, hparent⟩, hsamp⟩ := hwf
    obtain ⟨fc, hgo⟩ := analyzeGo_ok_of_wf t m hlen hframe hparent
      t.samplesStack [] hsamp
    refine ⟨fc, ?_⟩
    simp only [analyze_samples]
    rw [hgo]
  · intro fuel c visited fc hneg hvis
    simp only [walkSteps]
    rw [if_neg hneg, if_pos hvis]

/-- Witness for C4 on the cyclic thread (parent links 0 → 1 → 0): the
whole aggregation succeeds, and a revisited id stops the walk with the
counter unchanged. -/
theorem C4_witness :
    (analyze_samples thread2 noSyms).isOk = true ∧
    walkSteps thread2 noSyms 48 (some 0) [0] [] = Except.ok [] := by
  have h := C4_cycle_termination thread2 noSyms (by decide)
  refine ⟨?_, h.2 47 0 [0] [] (by decide) (by decide)⟩
  obtain ⟨fc, hfc⟩ := h.1
  rw [hfc]
  rfl

/-- C7: when the 50-iteration budget is exhausted the walk stops with the
counter as is (no error), and any single sample's walk from any starting
point raises the sum of all counts by at most 50. -/
theorem C7_depth_cap (t : Thread) (m : AddrMap) :
    (∀ (cur : Option Int) (visited : List Int) (fc : FuncCounts),
      walkSteps t m 0 cur visited fc = Except.ok fc) ∧
    (∀ (cur : Option Int) (visited : List Int) (fc fc2 : FuncCounts),
      walkSteps t m 50 cur visited fc = Except.ok fc2 →
      totalCount fc2 ≤ totalCount fc + 50) :=
  ⟨fun _ _ _ => rfl,
   fun cur visited fc fc2 h => walkSteps_total_le t m 50 cur visited fc fc2 h⟩

/-- Witness for C7 on a 61-link chain, longer than the cap: the walk stops
at the cap having incremented exactly 50 counts. -/
theorem C7_witness :
    walkSteps thread7 noSyms 0 (some 0) [] [] = Except.ok [] ∧
    totalCount [("0x7", 50)] ≤ totalCount ([] : FuncCounts) + 50 :=
  ⟨(C7_depth_cap thread7 noSyms).1 (some 0) [] [],
   (C7_depth_cap thread7 noSyms).2 (some 0) [] [] [("0x7", 50)] (by rfl)⟩

/-- C9: the aggregator, run with its inputs threaded as explicit state,
returns the thread tables and the address map exactly as given next to its
two computed values, which agree with the pure aggregation: no side
effects beyond the two return values. -/
theorem C9_no_side_effects (t : Thread) (m : AddrMap)
    (st2 : Thread × AddrMap) (fc : FuncCounts) (n : Nat)
    (h : analyze_samplesSt (t, m) = Except.ok (st2, fc, n)) :
    st2.1 = t ∧ st2.2 = m ∧ analyze_samples t m = Except.ok (fc, n) := by
  simp only [analyze_samplesSt, analyzeGoSt_eq] at h
  cases hg : analyzeGo t m t.samplesStack [] with
  | error e =>
    rw [hg] at h
    exact Except.noConfusion h
  | ok fcv =>
    rw [hg] at h
    simp only [Except.map, Except.ok.injEq, Prod.mk.injEq] at h
    obtain ⟨hst, hfc, hn⟩ := h
    refine ⟨by rw [← hst], by rw [← hst], ?_⟩
    simp only [analyze_samples]
    rw [hg, hfc, ← hn]

/-- Witness for C9 on the cyclic thread: the state comes back unchanged
and the values agree with the pure aggregation. -/
theorem C9_witness :
    ((thread2, noSyms) : Thread × AddrMap).1 = thread2 ∧
    ((thread2, noSyms) : Thread × AddrMap).2 = noSyms ∧
    analyze_samples thread2 noSyms = Except.ok ([("0x5", 2)], 3) :=
  C9_no_side_effects thread2 noSyms (thread2, noSyms) [("0x5", 2)] 3 (by rfl)

/-- C10: every function name present in the returned counter carries a
count of at least one; keys only come into existence by an increment. -/
theorem C10_counts_positive (t : Thread) (m : AddrMap) (fc : FuncCounts)
    (n : Nat) (h : analyze_samples t m = Except.ok (fc, n)) :
    ∀ p ∈ fc, 1 ≤ p.2 := by
  simp only [analyze_samples] at h
  cases hg : analyzeGo t m t.samplesStack [] with
  | error e => rw [hg] at h; exact Except.noConfusion h
  | ok fc2 =>
    rw [hg] at h
    simp only [Except.ok.injEq, Prod.mk.injEq] at h
    obtain ⟨hfc, _⟩ := h
    rw [← hfc]
    exact analyzeGo_pos t m t.samplesStack [] fc2 hg (fun p hp => absurd hp (by simp))

/-- Witness for C10: the cyclic thread's counter holds the pair of the
label 0x5 and the count 2, which is at least one. -/
theorem C10_witness : 1 ≤ (("0x5", 2) : String × Nat).2 :=
  C10_counts_positive thread2 noSyms [("0x5", 2)] 3 (by rfl) ("0x5", 2)
    (by decide)

end AnalyzeProfile
